import Mathlib

/-!
Verification of the server-registry core (`src/Process/ServerRegistry.C`).

The registry owns an ordered list of `Server` entities (`s_servers`), a
deferred-destruction list (`s_deletedServers`) and persists the collection to
the Preferences store.  We embed the registry state as `RegState`, the
Preferences store contents as a list of opaque records, and each registry
operation as a function on `RegState`.  Undefined behaviour in the C++
(out-of-range `QList::swap`, `QList::first` on an empty list) is modelled by
`Option`-valued operations returning `none`.
-/

namespace IQmol

namespace Process

/-- A server configuration: the designated display-name setting
(`ServerConfiguration::ServerName`) plus the remaining settings, which the
registry treats as opaque. -/
structure ServerConfiguration where
  serverName : String
  settings : List (String × String)
deriving DecidableEq, Repr

/-- Embeds `config.value(ServerConfiguration::ServerName)`. -/
def ServerConfiguration.value (c : ServerConfiguration) : String :=
  c.serverName

/-- Embeds `config.setValue(ServerConfiguration::ServerName, name)`. -/
def ServerConfiguration.setValue (c : ServerConfiguration) (name : String) :
    ServerConfiguration :=
  { c with serverName := name }

/-- Modelled from the spec: the hardcoded default `ServerConfiguration()`
(its constructor lives in ServerConfiguration.C, which is not part of the
sources); the registry only relies on it being some fixed configuration
(the default Q-Chem server). -/
def defaultConfiguration : ServerConfiguration :=
  { serverName := "Q-Chem", settings := [] }

/-- A `Server` wraps exactly one configuration; connection state is
irrelevant to the registry invariants verified here. -/
structure Server where
  configuration : ServerConfiguration
deriving DecidableEq, Repr

/-- Embeds `server->name()`: the configuration's display name. -/
def Server.name (s : Server) : String :=
  s.configuration.serverName

/-- An opaque record in the Preferences store (a `QVariant`).  A record
either decodes to a configuration or fails to decode; per the spec's store
contract, records produced by serialisation decode losslessly. -/
inductive Record where
  | ofConfig (c : ServerConfiguration)
  | bad (msg : String)
deriving DecidableEq, Repr

/-- Embeds `config.toQVariant()`. -/
def ServerConfiguration.toQVariant (c : ServerConfiguration) : Record :=
  .ofConfig c

/-- Embeds `ServerConfiguration(QVariant const&)`: construction from a persisted
record; throws on a bad record. -/
def configOfRecord : Record → Except String ServerConfiguration
  | .ofConfig c => .ok c
  | .bad m => .error m

/-- The registry's process-wide state: `s_servers`, `s_deletedServers`, and
the Preferences store's persisted server-configuration list. -/
structure RegState where
  servers : List Server
  deletedServers : List Server
  store : List Record
deriving DecidableEq, Repr

/-! ### Injectivity of decimal rendering

`addServer` resolves name collisions with suffixes `_1`, `_2`, … produced by
`QString::number`, embedded as `Nat.repr`.  Termination and correctness of
the collision loop rest on distinct counters rendering to distinct strings,
proved here via a right-fold decimal evaluator. -/

/-- Reads a character list as decimal digits, returning its value together
with `10 ^ length`. -/
def charVal : List Char → Nat × Nat
  | [] => (0, 1)
  | c :: t =>
    let vp := charVal t
    ((c.toNat - 48) * vp.2 + vp.1, 10 * vp.2)

/-! ### Registry operations -/

/-- Embeds `availableServers()`: the names of all active servers, in order. -/
def availableServers (s : RegState) : List String :=
  s.servers.map Server.name

/-- Embeds `indexOf(serverName)`: the position of the first active server with the
given name, or `-1`. -/
def indexOf (s : RegState) (serverName : String) : Int :=
  match s.servers.findIdx? (fun srv => srv.name = serverName) with
  | some i => (i : Int)
  | none => -1

/-- Embeds `find(serverName)`: the server at `indexOf` when non-negative, else the
not-found signal (null pointer). -/
def find (s : RegState) (serverName : String) : Option Server :=
  let index := indexOf s serverName
  if 0 ≤ index then s.servers[index.toNat]? else none

/-- Embeds `saveToPreferences()`: serialises every active server, in order, and
overwrites the stored list in full. -/
def saveToPreferences (s : RegState) : RegState :=
  { s with store := s.servers.map (fun srv => srv.configuration.toQVariant) }

/-- Modelled from the spec: `save()` is declared in `ServerRegistry.h`,
which is not among the sources; per the spec every structural mutation
re-persists the full collection, so `save` delegates to
`saveToPreferences`. -/
def save (s : RegState) : RegState :=
  saveToPreferences s

/-- The candidate names tried by `addServer`'s collision loop: the
configured name itself, then `name_1`, `name_2`, … (decimal rendering as by
`QString::number`). -/
def candName (base : String) : Nat → String
  | 0 => base
  | k + 1 => base ++ "_" ++ Nat.repr (k + 1)

/-- Embeds the `while (find(name))` loop of `addServer`; the fuel bounds the number
of iterations, and `s.servers.length + 1` provably suffices. -/
def resolveNameAux (s : RegState) (base : String) : Nat → Nat → String
  | count, 0 => candName base count
  | count, fuel + 1 =>
    if (find s (candName base count)).isSome then
      resolveNameAux s base (count + 1) fuel
    else
      candName base count

/-- The name `addServer` assigns to a configuration with display name
`base` against state `s` (the value computed by the collision loop). -/
def resolvedName (s : RegState) (base : String) : String :=
  resolveNameAux s base 0 (s.servers.length + 1)

/-- Embeds `addServer(config)`: resolves the display name against the active list,
writes it back into the configuration, appends the new server, persists,
and returns the new server together with the updated state. -/
def addServer (s : RegState) (config : ServerConfiguration) :
    Server × RegState :=
  let name := resolveNameAux s config.serverName 0 (s.servers.length + 1)
  let server : Server := { configuration := config.setValue name }
  (server, save { s with servers := s.servers ++ [server] })

/-- Embeds `remove(serverName)`: moves the entry at `indexOf` (when found) to the
deferred-destruction list, then persists. -/
def removeByName (s : RegState) (serverName : String) : RegState :=
  let index := indexOf s serverName
  if 0 ≤ index then
    save { s with
      deletedServers := s.deletedServers ++ (s.servers[index.toNat]?).toList,
      servers := s.servers.eraseIdx index.toNat }
  else
    save s

/-- Embeds `remove(Server*)`: moves the first entry equal to the given server to
the deferred-destruction list, then persists. -/
def removeByRef (s : RegState) (server : Server) : RegState :=
  match s.servers.findIdx? (fun srv => srv = server) with
  | some i =>
    save { s with
      deletedServers := s.deletedServers ++ (s.servers[i]?).toList,
      servers := s.servers.eraseIdx i }
  | none => save s

/-- In-range element swap on a list. -/
def listSwap {α : Type} (l : List α) (i j : Nat) : List α :=
  match l[i]?, l[j]? with
  | some a, some b => (l.set i b).set j a
  | _, _ => l

/-- Embeds `QList::swap(i, j)` with `int` indices: defined only when both indices
are in range, `none` (undefined behaviour) otherwise. -/
def swapQ {α : Type} (l : List α) (i j : Int) : Option (List α) :=
  if 0 ≤ i ∧ i < l.length ∧ 0 ≤ j ∧ j < l.length then
    some (listSwap l i.toNat j.toNat)
  else
    none

/-- Embeds `moveUp(serverName)`: swaps the entry with its predecessor when
`indexOf > 0`, then persists.  A `none` result would indicate an
out-of-range swap, which this guard cannot reach. -/
def moveUp (s : RegState) (serverName : String) : Option RegState :=
  let index := indexOf s serverName
  if 0 < index then
    (swapQ s.servers index (index - 1)).map fun l => save { s with servers := l }
  else
    some (save s)

/-- Embeds `moveDown(serverName)`: swaps the entry with its successor when
`indexOf < size - 1`, then persists.  A `none` result models the
out-of-range `QList::swap(-1, 0)` reached when the name is absent and the
list is non-empty. -/
def moveDown (s : RegState) (serverName : String) : Option RegState :=
  let index := indexOf s serverName
  if index < (s.servers.length : Int) - 1 then
    (swapQ s.servers index (index + 1)).map fun l => save { s with servers := l }
  else
    some (save s)

/-! ### Bootstrap -/

/-- A legacy `*.cfg` file as `loadFromFile` observes it: whether it opens
for reading, the parser's diagnostics, and the parsed YAML blocks (a `none`
block models a null pointer in the parser's output list). -/
structure ConfigFile where
  openable : Bool
  parseErrors : List String
  yamlBlocks : List (Option ServerConfiguration)
deriving DecidableEq, Repr

/-- Embeds `loadFromFile(filePath, serverConfig)`.  Result `some (some c)`: returns true
with `c` assigned; `some none`: returns false; `none`: undefined behaviour
(`yaml.first()` on an empty `QList`). -/
def loadFromFile (f : ConfigFile) : Option (Option ServerConfiguration) :=
  if ¬ f.openable then
    some none
  else
    match f.yamlBlocks with
    | [] => none
    | some c :: _ => some (some c)
    | none :: _ => some none

/-- The external inputs consulted by bootstrap: the persisted record list,
whether the server search directory exists, and its `*.cfg` files in
listing order. -/
structure Env where
  prefsList : List Record
  dirExists : Bool
  cfgFiles : List ConfigFile
deriving DecidableEq, Repr

/-- The record loop of `loadFromPreferences`: the servers constructed
before the first bad record, together with the exception that record
raised, if any. -/
def loadRecords : List Record → List Server × Option String
  | [] => ([], none)
  | r :: rs =>
    match configOfRecord r with
    | .ok c =>
      let rest := loadRecords rs
      ({ configuration := c } :: rest.1, rest.2)
    | .error m => ([], some m)

/-- The share-directory import loop: each importable file goes through
`addServer`; an undefined-behaviour file load poisons the whole loop. -/
def importFiles : List ConfigFile → RegState → Option RegState
  | [], s => some s
  | f :: fs, s =>
    match loadFromFile f with
    | none => none
    | some none => importFiles fs s
    | some (some c) => importFiles fs (addServer s c).2

/-- Embeds `loadFromPreferences()`, as run by `instance()` on the empty registry:
step 1 loads persisted records (an exception there is caught only after
skipping the remaining steps, leaving whatever was loaded so far), step 2
imports `*.cfg` files when still empty, step 3 appends the hardcoded
default when still empty. -/
def loadFromPreferences (env : Env) : Option RegState :=
  let s1 : RegState :=
    { servers := (loadRecords env.prefsList).1,
      deletedServers := [],
      store := env.prefsList }
  match (loadRecords env.prefsList).2 with
  | some _ => some s1
  | none =>
    let step2 : Option RegState :=
      if s1.servers.isEmpty && env.dirExists then
        importFiles env.cfgFiles s1
      else
        some s1
    step2.map fun s2 =>
      if s2.servers.isEmpty then
        { s2 with servers := [{ configuration := defaultConfiguration }] }
      else
        s2

/-- The registry state before bootstrap: both server lists start empty. -/
def emptyRegistry : RegState :=
  { servers := [], deletedServers := [], store := [] }

/-- Serialisation of the active list, as written by `saveToPreferences`. -/
def serialized (l : List Server) : List Record :=
  l.map (fun srv => srv.configuration.toQVariant)

/-- The display names of the records of a store that decode, in order. -/
def recordNames (rs : List Record) : List String :=
  (rs.filterMap (fun r => (configOfRecord r).toOption)).map
    (fun c => c.serverName)

/-! ### Injectivity of decimal rendering (proofs) -/

theorem digitChar_toNat_sub (m : Nat) (h : m < 10) :
    (Nat.digitChar m).toNat - 48 = m := by
  interval_cases m <;> rfl

theorem charVal_toDigitsCore (fuel : Nat) :
    ∀ n ds, n < fuel →
      (charVal (Nat.toDigitsCore 10 fuel n ds)).1
        = n * (charVal ds).2 + (charVal ds).1 := by
  induction fuel with
  | zero => intro n ds h; omega
  | succ fuel ih =>
    intro n ds h
    by_cases h10 : n / 10 = 0
    · have hn : n < 10 := by omega
      simp only [Nat.toDigitsCore, h10, if_true, charVal]
      rw [digitChar_toNat_sub (n % 10) (Nat.mod_lt _ (by omega)),
        Nat.mod_eq_of_lt hn]
    · have hlt : n / 10 < fuel := by omega
      simp only [Nat.toDigitsCore, h10, if_false]
      rw [ih (n / 10) (Nat.digitChar (n % 10) :: ds) hlt]
      simp only [charVal]
      rw [digitChar_toNat_sub (n % 10) (Nat.mod_lt _ (by omega))]
      have hd : 10 * (n / 10) + n % 10 = n := Nat.div_add_mod n 10
      calc n / 10 * (10 * (charVal ds).2)
            + (n % 10 * (charVal ds).2 + (charVal ds).1)
          = (10 * (n / 10) + n % 10) * (charVal ds).2 + (charVal ds).1 := by
            ring
        _ = n * (charVal ds).2 + (charVal ds).1 := by rw [hd]

theorem charVal_repr (n : Nat) : (charVal (Nat.repr n).data).1 = n := by
  have h : (Nat.repr n).data = Nat.toDigitsCore 10 (n + 1) n [] := rfl
  rw [h, charVal_toDigitsCore (n + 1) n [] (Nat.lt_succ_self n)]
  simp [charVal]

theorem reprInj {m n : Nat} (h : Nat.repr m = Nat.repr n) : m = n := by
  have := congrArg (fun s => (charVal s.data).1) h
  simpa [charVal_repr] using this

/-! ### Lookup lemmas -/

theorem mem_map_name_iff_findIdx (l : List Server) (name : String) :
    (l.findIdx? (fun srv => srv.name = name)).isSome ↔ name ∈ l.map Server.name := by
  rw [List.findIdx?_isSome]
  simp only [List.any_eq_true, List.mem_map, decide_eq_true_eq]

theorem find_isSome_iff (s : RegState) (name : String) :
    (find s name).isSome ↔ name ∈ availableServers s := by
  rw [availableServers, ← mem_map_name_iff_findIdx s.servers name]
  unfold find indexOf
  cases h : s.servers.findIdx? (fun srv => srv.name = name) with
  | none => simp
  | some i =>
    obtain ⟨hi, -, -⟩ := List.findIdx?_eq_some_iff_getElem.mp h
    simp [List.getElem?_eq_getElem hi]

theorem find_eq_none_iff (s : RegState) (name : String) :
    find s name = none ↔ name ∉ availableServers s := by
  rw [← find_isSome_iff]
  cases find s name <;> simp

theorem indexOf_eq_neg_one_iff (s : RegState) (name : String) :
    indexOf s name = -1 ↔ name ∉ availableServers s := by
  rw [availableServers, ← mem_map_name_iff_findIdx s.servers name]
  unfold indexOf
  cases h : s.servers.findIdx? (fun srv => srv.name = name) with
  | none => simp
  | some i => simp

/-! ### Collision-resolution lemmas -/

theorem strData_append (a b : String) : (a ++ b).data = a.data ++ b.data := by
  cases a
  cases b
  rfl

theorem candName_inj (base : String) :
    ∀ {j k : Nat}, candName base j = candName base k → j = k := by
  intro j k h
  match j, k with
  | 0, 0 => rfl
  | 0, k + 1 =>
    exfalso
    have hl := congrArg (fun s => s.data.length) h
    have hu : ("_" : String).data.length = 1 := rfl
    simp only [candName, strData_append, List.length_append, hu] at hl
    omega
  | j + 1, 0 =>
    exfalso
    have hl := congrArg (fun s => s.data.length) h
    have hu : ("_" : String).data.length = 1 := rfl
    simp only [candName, strData_append, List.length_append, hu] at hl
    omega
  | j + 1, k + 1 =>
    have hd := congrArg String.data h
    simp only [candName, strData_append, List.append_assoc] at hd
    have hr : (Nat.repr (j + 1)).data = (Nat.repr (k + 1)).data := by
      have := List.append_cancel_left hd
      simpa using this
    have : Nat.repr (j + 1) = Nat.repr (k + 1) := by
      cases hrj : Nat.repr (j + 1)
      cases hrk : Nat.repr (k + 1)
      rw [hrj, hrk] at hr
      exact congrArg String.mk hr
    exact congrArg (· + 1) (Nat.succ_injective (by simpa using reprInj this))

theorem exists_fresh_cand (base : String) (names : List String) :
    ∃ k, k ≤ names.length ∧ candName base k ∉ names := by
  by_contra hc
  push_neg at hc
  have hmap : ∀ k ∈ Finset.range (names.length + 1),
      candName base k ∈ names.toFinset := by
    intro k hk
    rw [List.mem_toFinset]
    exact hc k (Nat.lt_succ_iff.mp (Finset.mem_range.mp hk))
  have hcard := Finset.card_le_card_of_injOn (fun k => candName base k) hmap
    (fun a _ b _ hab => candName_inj base hab)
  rw [Finset.card_range] at hcard
  have := names.toFinset_card_le
  omega

theorem resolveNameAux_spec (s : RegState) (base : String) :
    ∀ fuel count,
      (∃ j, j < fuel ∧ (find s (candName base (count + j))).isSome = false) →
      ∃ k, resolveNameAux s base count fuel = candName base (count + k) ∧
        (find s (candName base (count + k))).isSome = false ∧
        ∀ j, j < k → (find s (candName base (count + j))).isSome = true := by
  intro fuel
  induction fuel with
  | zero =>
    intro count h
    obtain ⟨j, hj, -⟩ := h
    omega
  | succ fuel ih =>
    intro count h
    by_cases hc : (find s (candName base count)).isSome = true
    · obtain ⟨j, hj, hfree⟩ := h
      have hj0 : j ≠ 0 := by
        intro h0
        rw [h0, Nat.add_zero] at hfree
        rw [hc] at hfree
        exact Bool.true_eq_false.mp hfree
      have hshift : count + 1 + (j - 1) = count + j := by omega
      obtain ⟨k, hk1, hk2, hk3⟩ :=
        ih (count + 1) ⟨j - 1, by omega, by rw [hshift]; exact hfree⟩
      have hs1 : count + 1 + k = count + (k + 1) := by omega
      refine ⟨k + 1, ?_, ?_, ?_⟩
      · rw [resolveNameAux, if_pos hc, hk1, hs1]
      · rw [← hs1]
        exact hk2
      · intro j' hj'
        cases j' with
        | zero => exact hc
        | succ j'' =>
          have : count + 1 + j'' = count + (j'' + 1) := by omega
          rw [← this]
          exact hk3 j'' (by omega)
    · refine ⟨0, ?_, ?_, ?_⟩
      · rw [resolveNameAux, if_neg hc, Nat.add_zero]
      · rw [Nat.add_zero]
        exact Bool.not_eq_true _ ▸ (Bool.eq_false_iff.mpr hc)
      · intro j hj
        omega

theorem resolvedName_spec (s : RegState) (base : String) :
    ∃ k, resolvedName s base = candName base k ∧
      candName base k ∉ availableServers s ∧
      ∀ j, j < k → candName base j ∈ availableServers s := by
  obtain ⟨k0, hk0le, hk0⟩ := exists_fresh_cand base (availableServers s)
  have hlen : (availableServers s).length = s.servers.length :=
    List.length_map _ _
  have hfree0 : (find s (candName base (0 + k0))).isSome = false := by
    rw [Nat.zero_add, ← Bool.not_eq_true, find_isSome_iff]
    exact hk0
  obtain ⟨k, h1, h2, h3⟩ :=
    resolveNameAux_spec s base (s.servers.length + 1) 0 ⟨k0, by omega, hfree0⟩
  refine ⟨k, ?_, ?_, ?_⟩
  · rw [resolvedName, h1, Nat.zero_add]
  · rw [Nat.zero_add] at h2
    rw [← find_isSome_iff, h2]
    exact Bool.false_ne_true
  · intro j hj
    have := h3 j hj
    rw [Nat.zero_add] at this
    exact (find_isSome_iff s _).mp this

theorem resolvedName_not_mem (s : RegState) (base : String) :
    resolvedName s base ∉ availableServers s := by
  obtain ⟨k, h1, h2, -⟩ := resolvedName_spec s base
  rw [h1]
  exact h2

theorem resolvedName_of_not_mem (s : RegState) (base : String)
    (h : base ∉ availableServers s) : resolvedName s base = base := by
  have hfind : (find s (candName base 0)).isSome = true → False := by
    intro hc
    exact h ((find_isSome_iff s _).mp hc)
  rw [resolvedName, resolveNameAux, if_neg hfind]
  rfl

/-! ### List helper lemmas -/

theorem map_eraseIdx_comm {α β : Type} (f : α → β) :
    ∀ (l : List α) (i : Nat), (l.eraseIdx i).map f = (l.map f).eraseIdx i
  | [], _ => rfl
  | _ :: _, 0 => rfl
  | a :: t, i + 1 => by
    simp only [List.eraseIdx, List.map_cons, map_eraseIdx_comm f t i]

theorem nodup_not_mem_eraseIdx {α : Type} (l : List α) (i : Nat) (a : α)
    (hnd : l.Nodup) (hga : l[i]? = some a) : a ∉ l.eraseIdx i := by
  intro hmem
  rw [List.mem_eraseIdx_iff_getElem?] at hmem
  obtain ⟨j, hji, hgj⟩ := hmem
  have hnd2 := List.nodup_iff_getElem?_ne_getElem?.mp hnd
  have hilen : i < l.length := by
    by_contra hc
    rw [List.getElem?_eq_none (by omega)] at hga
    exact Option.noConfusion hga
  have hjlen : j < l.length := by
    by_contra hc
    rw [List.getElem?_eq_none (by omega)] at hgj
    exact Option.noConfusion hgj
  rcases Nat.lt_or_ge j i with h | h
  · exact hnd2 j i h hilen (by rw [hga, hgj])
  · exact hnd2 i j (by omega) hjlen (by rw [hga, hgj])

theorem listSwap_eq_set {α : Type} (l : List α) (i j : Nat)
    (hi : i < l.length) (hj : j < l.length) :
    listSwap l i j = (l.set i (l.get ⟨j, hj⟩)).set j (l.get ⟨i, hi⟩) := by
  unfold listSwap
  rw [List.getElem?_eq_getElem hi, List.getElem?_eq_getElem hj]
  simp [List.get_eq_getElem]

theorem listSwap_spec {α : Type} (l : List α) (i j : Nat)
    (hi : i < l.length) (hj : j < l.length) (hij : i ≠ j) :
    (listSwap l i j).length = l.length ∧
    (listSwap l i j)[j]? = l[i]? ∧
    (listSwap l i j)[i]? = l[j]? ∧
    ∀ k, k ≠ i → k ≠ j → (listSwap l i j)[k]? = l[k]? := by
  rw [listSwap_eq_set l i j hi hj]
  refine ⟨by simp, ?_, ?_, ?_⟩
  · rw [List.getElem?_set_self (by simpa using hj), List.getElem?_eq_getElem hi]
    simp
  · rw [List.getElem?_set_ne (Ne.symm hij),
      List.getElem?_set_self hi, List.getElem?_eq_getElem hj]
    simp
  · intro k hki hkj
    rw [List.getElem?_set_ne (fun h => hkj h.symm),
      List.getElem?_set_ne (fun h => hki h.symm)]

theorem listSwap_comm {α : Type} (l : List α) (i j : Nat)
    (hi : i < l.length) (hj : j < l.length) :
    listSwap l i j = listSwap l j i := by
  by_cases hij : i = j
  · subst hij
    rfl
  · obtain ⟨hl1, hj1, hi1, hk1⟩ := listSwap_spec l i j hi hj hij
    obtain ⟨hl2, hi2, hj2, hk2⟩ := listSwap_spec l j i hj hi (Ne.symm hij)
    apply List.ext_getElem?
    intro k
    by_cases hki : k = i
    · subst hki
      rw [hi1, hi2]
    · by_cases hkj : k = j
      · subst hkj
        rw [hj1, hj2]
      · rw [hk1 k hki hkj, hk2 k hkj hki]

theorem listSwap_adjacent {α : Type} :
    ∀ (l : List α) (i : Nat) (h : i + 1 < l.length),
      listSwap l i (i + 1)
        = l.take i ++ l.get ⟨i + 1, h⟩ :: l.get ⟨i, Nat.lt_of_succ_lt h⟩ ::
            l.drop (i + 2) := by
  intro l
  induction l with
  | nil =>
    intro i h
    simp at h
  | cons a t ih =>
    intro i h
    cases i with
    | zero =>
      cases t with
      | nil => simp at h
      | cons b t2 => simp [listSwap]
    | succ i =>
      have h2 : i + 1 < t.length := by simpa using h
      have hstep : listSwap (a :: t) (i + 1) (i + 2) = a :: listSwap t i (i + 1) := by
        unfold listSwap
        rw [List.getElem?_cons_succ, List.getElem?_cons_succ]
        rw [List.getElem?_eq_getElem (Nat.lt_of_succ_lt h2),
          List.getElem?_eq_getElem h2]
        rfl
      rw [hstep, ih i h2]
      simp

theorem listSwap_adjacent_perm {α : Type} (l : List α) (i : Nat)
    (h : i + 1 < l.length) : (listSwap l i (i + 1)).Perm l := by
  rw [listSwap_adjacent l i h]
  conv_rhs => rw [← List.take_append_drop i l]
  refine List.Perm.append_left _ ?_
  have hdrop : l.drop i
      = l.get ⟨i, Nat.lt_of_succ_lt h⟩ :: l.get ⟨i + 1, h⟩ :: l.drop (i + 2) := by
    rw [List.drop_eq_getElem_cons (Nat.lt_of_succ_lt h),
      List.drop_eq_getElem_cons h]
    simp
  rw [hdrop]
  exact List.Perm.swap _ _ _

theorem findIdx?_name_get (l : List Server) (i : Nat) (hi : i < l.length)
    (hnd : (l.map Server.name).Nodup) :
    l.findIdx? (fun srv => srv.name = (l.get ⟨i, hi⟩).name) = some i := by
  rw [List.findIdx?_eq_some_iff_getElem]
  refine ⟨hi, by simp, ?_⟩
  intro j hji
  simp only [decide_eq_true_eq, List.get_eq_getElem]
  intro heq
  have hj : j < l.length := by omega
  have hlj : j < (l.map Server.name).length := by simpa using hj
  have hli : i < (l.map Server.name).length := by simpa using hi
  have hmapj : (l.map Server.name)[j] = (l.map Server.name)[i] := by
    simp only [List.getElem_map]
    exact heq
  have := (hnd.getElem_inj_iff).mp hmapj
  omega

/-! ### Operation lemmas -/

theorem save_servers (s : RegState) : (save s).servers = s.servers :=
  rfl

theorem save_deletedServers (s : RegState) :
    (save s).deletedServers = s.deletedServers :=
  rfl

theorem save_invariant (s : RegState) :
    (save s).store = serialized (save s).servers :=
  rfl

theorem availableServers_save (s : RegState) :
    availableServers (save s) = availableServers s :=
  rfl

theorem addServer_fst_name (s : RegState) (c : ServerConfiguration) :
    (addServer s c).1.name = resolvedName s c.serverName :=
  rfl

theorem addServer_snd_servers (s : RegState) (c : ServerConfiguration) :
    (addServer s c).2.servers = s.servers ++ [(addServer s c).1] :=
  rfl

theorem availableServers_addServer (s : RegState) (c : ServerConfiguration) :
    availableServers (addServer s c).2
      = availableServers s ++ [resolvedName s c.serverName] := by
  rw [availableServers, addServer_snd_servers, List.map_append]
  rfl

theorem addServer_nodup (s : RegState) (c : ServerConfiguration)
    (h : (availableServers s).Nodup) :
    (availableServers (addServer s c).2).Nodup := by
  rw [availableServers_addServer, List.nodup_append]
  refine ⟨h, List.nodup_singleton _, ?_⟩
  intro a ha hb
  rw [List.mem_singleton] at hb
  subst hb
  exact resolvedName_not_mem s c.serverName ha

theorem eraseIdx_names_nodup (l : List Server) (i : Nat)
    (h : (l.map Server.name).Nodup) :
    ((l.eraseIdx i).map Server.name).Nodup := by
  rw [map_eraseIdx_comm]
  exact (List.eraseIdx_sublist _ i).nodup h

theorem removeByName_found (s : RegState) (name : String) (i : Nat)
    (hf : s.servers.findIdx? (fun srv => srv.name = name) = some i) :
    removeByName s name
      = save { s with
          deletedServers := s.deletedServers ++ (s.servers[i]?).toList,
          servers := s.servers.eraseIdx i } := by
  unfold removeByName indexOf
  rw [hf]
  have h0 : (0 : Int) ≤ (i : Int) := by omega
  rw [if_pos h0]
  have ht : ((i : Int)).toNat = i := by omega
  rw [ht]

theorem removeByName_missing (s : RegState) (name : String)
    (hf : s.servers.findIdx? (fun srv => srv.name = name) = none) :
    removeByName s name = save s := by
  unfold removeByName indexOf
  rw [hf]
  have h0 : ¬ ((0 : Int) ≤ (-1 : Int)) := by omega
  rw [if_neg h0]

theorem moveUp_cases (s : RegState) (name : String) (s2 : RegState)
    (h : moveUp s name = some s2) :
    s2 = save s
    ∨ ∃ i : Nat, s.servers.findIdx? (fun srv => srv.name = name) = some i
        ∧ 0 < i ∧ i < s.servers.length
        ∧ s2 = save { s with servers := listSwap s.servers i (i - 1) } := by
  unfold moveUp indexOf at h
  cases hf : s.servers.findIdx? (fun srv => srv.name = name) with
  | none =>
    rw [hf] at h
    simp at h
    exact Or.inl h.symm
  | some i =>
    rw [hf] at h
    by_cases hpos : 0 < i
    · obtain ⟨hi, -, -⟩ := List.findIdx?_eq_some_iff_getElem.mp hf
      have hcond : (0 : Int) < (i : Int) := by omega
      rw [if_pos hcond] at h
      have hrange : (0 : Int) ≤ (i : Int) ∧ (i : Int) < s.servers.length
          ∧ (0 : Int) ≤ (i : Int) - 1 ∧ (i : Int) - 1 < s.servers.length := by
        omega
      unfold swapQ at h
      rw [if_pos hrange] at h
      have ht1 : ((i : Int)).toNat = i := by omega
      have ht2 : ((i : Int) - 1).toNat = i - 1 := by omega
      rw [ht1, ht2] at h
      simp only [Option.map_some'] at h
      exact Or.inr ⟨i, rfl, hpos, hi, (Option.some.inj h).symm⟩
    · have hcond : ¬ ((0 : Int) < (i : Int)) := by omega
      rw [if_neg hcond] at h
      simp at h
      exact Or.inl h.symm

theorem moveDown_cases (s : RegState) (name : String) (s2 : RegState)
    (h : moveDown s name = some s2) :
    s2 = save s
    ∨ ∃ i : Nat, s.servers.findIdx? (fun srv => srv.name = name) = some i
        ∧ i + 1 < s.servers.length
        ∧ s2 = save { s with servers := listSwap s.servers i (i + 1) } := by
  unfold moveDown indexOf at h
  cases hf : s.servers.findIdx? (fun srv => srv.name = name) with
  | none =>
    rw [hf] at h
    by_cases hlen : s.servers.length = 0
    · have hcond : ¬ ((-1 : Int) < (s.servers.length : Int) - 1) := by omega
      rw [if_neg hcond] at h
      simp at h
      exact Or.inl h.symm
    · have hcond : (-1 : Int) < (s.servers.length : Int) - 1 := by omega
      rw [if_pos hcond] at h
      have hrange : ¬ ((0 : Int) ≤ (-1 : Int) ∧ (-1 : Int) < s.servers.length
          ∧ (0 : Int) ≤ (-1 : Int) + 1 ∧ (-1 : Int) + 1 < s.servers.length) := by
        omega
      unfold swapQ at h
      rw [if_neg hrange] at h
      simp at h
  | some i =>
    rw [hf] at h
    obtain ⟨hi, -, -⟩ := List.findIdx?_eq_some_iff_getElem.mp hf
    by_cases hcond : ((i : Int)) < (s.servers.length : Int) - 1
    · rw [if_pos hcond] at h
      have hrange : (0 : Int) ≤ (i : Int) ∧ (i : Int) < s.servers.length
          ∧ (0 : Int) ≤ (i : Int) + 1 ∧ (i : Int) + 1 < s.servers.length := by
        omega
      unfold swapQ at h
      rw [if_pos hrange] at h
      have ht1 : ((i : Int)).toNat = i := by omega
      have ht2 : ((i : Int) + 1).toNat = i + 1 := by omega
      rw [ht1, ht2] at h
      simp only [Option.map_some'] at h
      exact Or.inr ⟨i, rfl, by omega, (Option.some.inj h).symm⟩
    · rw [if_neg hcond] at h
      simp at h
      exact Or.inl h.symm

/-! ### Bootstrap lemmas -/

theorem loadRecords_serialized (l : List Server) :
    loadRecords (serialized l) = (l, none) := by
  induction l with
  | nil => rfl
  | cons a t ih =>
    show (({ configuration := a.configuration } : Server)
        :: (loadRecords (serialized t)).1,
      (loadRecords (serialized t)).2) = (a :: t, none)
    rw [ih]

theorem loadRecords_names_sublist (rs : List Record) :
    ((loadRecords rs).1.map Server.name).Sublist (recordNames rs) := by
  induction rs with
  | nil => simp [loadRecords, recordNames]
  | cons r t ih =>
    cases r with
    | ofConfig c =>
      simp only [loadRecords, configOfRecord, recordNames, List.filterMap_cons,
        Except.toOption, List.map_cons]
      exact List.Sublist.cons₂ _ ih
    | bad m =>
      simp only [loadRecords, configOfRecord]
      exact List.nil_sublist _

theorem importFiles_nodup :
    ∀ (fs : List ConfigFile) (s s2 : RegState),
      importFiles fs s = some s2 → (availableServers s).Nodup →
      (availableServers s2).Nodup := by
  intro fs
  induction fs with
  | nil =>
    intro s s2 h hnd
    cases h
    exact hnd
  | cons f ft ih =>
    intro s s2 h hnd
    rw [importFiles] at h
    cases hf : loadFromFile f with
    | none =>
      rw [hf] at h
      exact Option.noConfusion h
    | some o =>
      rw [hf] at h
      cases o with
      | none => exact ih s s2 h hnd
      | some c => exact ih (addServer s c).2 s2 h (addServer_nodup s c hnd)

theorem importFiles_ne_nil :
    ∀ (fs : List ConfigFile) (s s2 : RegState),
      importFiles fs s = some s2 →
      (s.servers ≠ [] ∨ ∃ f ∈ fs, ∃ c, loadFromFile f = some (some c)) →
      s2.servers ≠ [] := by
  intro fs
  induction fs with
  | nil =>
    intro s s2 h hyp
    cases h
    rcases hyp with hne | ⟨f, hf, -⟩
    · exact hne
    · exact absurd hf (List.not_mem_nil f)
  | cons f ft ih =>
    intro s s2 h hyp
    rw [importFiles] at h
    cases hf : loadFromFile f with
    | none =>
      rw [hf] at h
      exact Option.noConfusion h
    | some o =>
      rw [hf] at h
      cases o with
      | none =>
        refine ih s s2 h ?_
        rcases hyp with hne | ⟨g, hg, c, hgc⟩
        · exact Or.inl hne
        · rcases List.mem_cons.mp hg with rfl | hg2
          · rw [hf] at hgc
            exact Option.noConfusion (Option.some.inj hgc)
          · exact Or.inr ⟨g, hg2, c, hgc⟩
      | some c =>
        refine ih (addServer s c).2 s2 h (Or.inl ?_)
        rw [addServer_snd_servers]
        simp

theorem importFiles_isSome :
    ∀ (fs : List ConfigFile) (s : RegState),
      (∀ f ∈ fs, loadFromFile f ≠ none) →
      ∃ s2, importFiles fs s = some s2 := by
  intro fs
  induction fs with
  | nil =>
    intro s _
    exact ⟨s, rfl⟩
  | cons f ft ih =>
    intro s hall
    rw [importFiles]
    cases hf : loadFromFile f with
    | none => exact absurd hf (hall f (List.mem_cons_self f ft))
    | some o =>
      cases o with
      | none => exact ih s (fun g hg => hall g (List.mem_cons_of_mem f hg))
      | some c => exact ih (addServer s c).2 (fun g hg => hall g (List.mem_cons_of_mem f hg))

theorem importFiles_allFail :
    ∀ (fs : List ConfigFile) (s : RegState),
      (∀ f ∈ fs, loadFromFile f = some none) →
      importFiles fs s = some s := by
  intro fs
  induction fs with
  | nil =>
    intro s _
    rfl
  | cons f ft ih =>
    intro s hall
    rw [importFiles, hall f (List.mem_cons_self f ft)]
    exact ih s (fun g hg => hall g (List.mem_cons_of_mem f hg))

theorem loadFromPreferences_err (env : Env) (m : String)
    (h : (loadRecords env.prefsList).2 = some m) :
    loadFromPreferences env
      = some { servers := (loadRecords env.prefsList).1,
               deletedServers := [], store := env.prefsList } := by
  unfold loadFromPreferences
  rw [h]

theorem loadFromPreferences_loaded (env : Env)
    (h : (loadRecords env.prefsList).2 = none)
    (hne : (loadRecords env.prefsList).1 ≠ []) :
    loadFromPreferences env
      = some { servers := (loadRecords env.prefsList).1,
               deletedServers := [], store := env.prefsList } := by
  unfold loadFromPreferences
  rw [h]
  have hie : (loadRecords env.prefsList).1.isEmpty = false := by
    cases hl : (loadRecords env.prefsList).1 with
    | nil => exact absurd hl hne
    | cons a t => rfl
  simp [hie]
  intro hl
  exact absurd hl hne

theorem loadFromPreferences_dir_cases (env : Env)
    (h : (loadRecords env.prefsList).2 = none)
    (he : (loadRecords env.prefsList).1 = [])
    (hd : env.dirExists = true) :
    loadFromPreferences env
      = (importFiles env.cfgFiles
          { servers := [], deletedServers := [], store := env.prefsList }).map
          (fun s2 => if s2.servers.isEmpty
            then { s2 with servers := [{ configuration := defaultConfiguration }] }
            else s2) := by
  unfold loadFromPreferences
  rw [h, he, hd]
  simp

theorem loadFromPreferences_default (env : Env)
    (h : (loadRecords env.prefsList).2 = none)
    (he : (loadRecords env.prefsList).1 = [])
    (hd : env.dirExists = false ∨ ∀ f ∈ env.cfgFiles, loadFromFile f = some none) :
    loadFromPreferences env
      = some { servers := [{ configuration := defaultConfiguration }],
               deletedServers := [], store := env.prefsList } := by
  rcases hd with hd | hd
  · unfold loadFromPreferences
    rw [h, he, hd]
    simp
  · cases hdir : env.dirExists with
    | false =>
      unfold loadFromPreferences
      rw [h, he, hdir]
      simp
    | true =>
      rw [loadFromPreferences_dir_cases env h he hdir,
        importFiles_allFail env.cfgFiles _ hd]
      simp

/-! ### Claim theorems -/

/-- C1: every sequence of `addServer` calls keeps the active names pairwise
distinct; a configuration whose display name is absent keeps it unsuffixed;
a collision is resolved to the first free `_N` suffix; and two consecutive
adds of "alpha" yield "alpha" then "alpha_1", in that order. -/
theorem addServer_name_resolution :
    (∀ (s : RegState) (configs : List ServerConfiguration),
      (availableServers s).Nodup →
      (availableServers
        (configs.foldl (fun st c => (addServer st c).2) s)).Nodup) ∧
    (∀ (s : RegState) (c : ServerConfiguration),
      c.serverName ∉ availableServers s →
      (addServer s c).1.name = c.serverName) ∧
    (∀ (s : RegState) (c : ServerConfiguration),
      ∃ k, (addServer s c).1.name = candName c.serverName k ∧
        candName c.serverName k ∉ availableServers s ∧
        ∀ j, j < k → candName c.serverName j ∈ availableServers s) ∧
    availableServers
        (addServer (addServer emptyRegistry ⟨"alpha", []⟩).2 ⟨"alpha", []⟩).2
      = ["alpha", "alpha_1"] := by
  refine ⟨?_, ?_, ?_, by decide⟩
  · intro s configs
    induction configs generalizing s with
    | nil => intro h; exact h
    | cons c ct ih =>
      intro h
      exact ih (addServer s c).2 (addServer_nodup s c h)
  · intro s c h
    rw [addServer_fst_name]
    exact resolvedName_of_not_mem s c.serverName h
  · intro s c
    rw [addServer_fst_name]
    exact resolvedName_spec s c.serverName

theorem addServer_name_resolution_witness :
    (availableServers emptyRegistry).Nodup ∧
    (availableServers
      ([⟨"alpha", []⟩, ⟨"alpha", []⟩].foldl
        (fun st c => (addServer st c).2) emptyRegistry)).Nodup :=
  ⟨by decide,
    addServer_name_resolution.1 emptyRegistry [⟨"alpha", []⟩, ⟨"alpha", []⟩]
      (by decide)⟩

/-- C3: evaluating bootstrap on a store whose record fails to decode: the
exception is raised inside the `try` block before the directory and
hardcoded-default fallback steps run, so the caught failure leaves `active`
empty — even though an importable `*.cfg` file is available.  This
contradicts the claim that the hardcoded default guarantees at least one
entry for every state of the Preferences store. -/
theorem bootstrap_badRecord_leaves_empty :
    loadFromPreferences
        { prefsList := [Record.bad "x"],
          dirExists := true,
          cfgFiles := [{ openable := true, parseErrors := [],
                         yamlBlocks := [some defaultConfiguration] }] }
      = some { servers := [], deletedServers := [],
               store := [Record.bad "x"] } := by
  decide

/-- C8: the function `loadFromFile` reports failure when the file cannot be opened, and
reports success with the configuration built from the first YAML block when
one is present; but when the parse completes with no block at all, the code
dereferences `yaml.first()` on an empty `QList` — undefined behaviour,
modelled as `none` — instead of reporting failure. -/
theorem loadFromFile_eval :
    loadFromFile { openable := false, parseErrors := [],
                   yamlBlocks := [some defaultConfiguration] } = some none ∧
    loadFromFile { openable := true, parseErrors := ["diag"],
                   yamlBlocks := [some defaultConfiguration, none] }
      = some (some defaultConfiguration) ∧
    loadFromFile { openable := true, parseErrors := [],
                   yamlBlocks := [] } = none := by
  decide

/-- C10: calling `moveDown` on a name absent from a non-empty active list passes
the `index < size - 1` guard with `index = -1` and reaches
`QList::swap(-1, 0)` — an out-of-range access, modelled as `none` — rather
than leaving the order unchanged. -/
theorem moveDown_absent_negative_swap :
    moveDown { servers := [{ configuration := { serverName := "a",
                                                settings := [] } }],
               deletedServers := [], store := [] } "b" = none := by
  decide

/-- C2: bootstrap precedence: a store that yields at least one entry makes
the result independent of the search directory and its files (discovery
does not run); a store that cleanly yields none combined with at least one
importable file leaves the step-2 result untouched (no hardcoded default);
and when both sources yield nothing, exactly one hardcoded-default entry
results. -/
theorem bootstrap_fallback_precedence (env : Env) :
    ((loadRecords env.prefsList).1 ≠ [] →
      ∀ (dir : Bool) (files : List ConfigFile),
        loadFromPreferences
            { prefsList := env.prefsList, dirExists := dir, cfgFiles := files }
          = loadFromPreferences env) ∧
    (loadRecords env.prefsList = ([], none) → env.dirExists = true →
      (∀ f ∈ env.cfgFiles, loadFromFile f ≠ none) →
      (∃ f ∈ env.cfgFiles, ∃ c, loadFromFile f = some (some c)) →
      ∃ s2, importFiles env.cfgFiles
            { servers := [], deletedServers := [], store := env.prefsList }
          = some s2
        ∧ s2.servers ≠ [] ∧ loadFromPreferences env = some s2) ∧
    (loadRecords env.prefsList = ([], none) →
      (env.dirExists = false ∨ ∀ f ∈ env.cfgFiles, loadFromFile f = some none) →
      loadFromPreferences env
        = some { servers := [{ configuration := defaultConfiguration }],
                 deletedServers := [], store := env.prefsList }) := by
  refine ⟨?_, ?_, ?_⟩
  · intro hne dir files
    cases herr : (loadRecords env.prefsList).2 with
    | some m =>
      rw [loadFromPreferences_err env m herr,
        loadFromPreferences_err { prefsList := env.prefsList,
                                  dirExists := dir, cfgFiles := files } m herr]
    | none =>
      rw [loadFromPreferences_loaded env herr hne,
        loadFromPreferences_loaded { prefsList := env.prefsList,
                                     dirExists := dir, cfgFiles := files } herr hne]
  · intro hlr hdir hdef himp
    have h2 : (loadRecords env.prefsList).2 = none := by rw [hlr]
    have h1 : (loadRecords env.prefsList).1 = [] := by rw [hlr]
    obtain ⟨s2, hs2⟩ := importFiles_isSome env.cfgFiles
      { servers := [], deletedServers := [], store := env.prefsList } hdef
    have hne : s2.servers ≠ [] :=
      importFiles_ne_nil env.cfgFiles _ s2 hs2 (Or.inr himp)
    refine ⟨s2, hs2, hne, ?_⟩
    rw [loadFromPreferences_dir_cases env h2 h1 hdir, hs2]
    have hie : s2.servers.isEmpty = false := by
      cases hls : s2.servers with
      | nil => exact absurd hls hne
      | cons a t => rfl
    simp [hie]
    intro hls
    exact absurd hls hne
  · intro hlr hd
    have h2 : (loadRecords env.prefsList).2 = none := by rw [hlr]
    have h1 : (loadRecords env.prefsList).1 = [] := by rw [hlr]
    exact loadFromPreferences_default env h2 h1 hd

theorem bootstrap_fallback_precedence_witness :
    loadFromPreferences { prefsList := [], dirExists := false, cfgFiles := [] }
      = some { servers := [{ configuration := defaultConfiguration }],
               deletedServers := [], store := [] } :=
  (bootstrap_fallback_precedence
      { prefsList := [], dirExists := false, cfgFiles := [] }).2.2
    rfl (Or.inl rfl)

/-- C4 counterexample: bootstrap appends persisted records without
de-duplication, so a store holding two records with the same display name
produces two active entries sharing a name — an observable point where the
claimed invariant fails. -/
theorem bootstrap_duplicate_names :
    (loadFromPreferences
        { prefsList := [Record.ofConfig { serverName := "a", settings := [] },
                        Record.ofConfig { serverName := "a", settings := [] }],
          dirExists := false, cfgFiles := [] }).map availableServers
      = some ["a", "a"]
    ∧ ¬ (["a", "a"] : List String).Nodup := by
  decide

/-- C4 (amended): no two active entries share a name after bootstrap
provided the decodable persisted records carry pairwise-distinct display
names, and every mutating operation preserves pairwise-distinct names. -/
theorem names_nodup_invariant :
    (∀ (env : Env) (s : RegState), (recordNames env.prefsList).Nodup →
      loadFromPreferences env = some s → (availableServers s).Nodup) ∧
    (∀ (s : RegState) (c : ServerConfiguration), (availableServers s).Nodup →
      (availableServers (addServer s c).2).Nodup) ∧
    (∀ (s : RegState) (name : String), (availableServers s).Nodup →
      (availableServers (removeByName s name)).Nodup) ∧
    (∀ (s : RegState) (srv : Server), (availableServers s).Nodup →
      (availableServers (removeByRef s srv)).Nodup) ∧
    (∀ (s : RegState) (name : String) (s2 : RegState),
      (availableServers s).Nodup → moveUp s name = some s2 →
      (availableServers s2).Nodup) ∧
    (∀ (s : RegState) (name : String) (s2 : RegState),
      (availableServers s).Nodup → moveDown s name = some s2 →
      (availableServers s2).Nodup) := by
  refine ⟨?_, addServer_nodup, ?_, ?_, ?_, ?_⟩
  · intro env s hnd h
    have hload : ((loadRecords env.prefsList).1.map Server.name).Nodup :=
      (loadRecords_names_sublist env.prefsList).nodup hnd
    cases herr : (loadRecords env.prefsList).2 with
    | some m =>
      rw [loadFromPreferences_err env m herr] at h
      cases h
      exact hload
    | none =>
      cases hl : (loadRecords env.prefsList).1 with
      | cons a t =>
        rw [loadFromPreferences_loaded env herr (by rw [hl]; simp)] at h
        cases h
        exact hload
      | nil =>
        cases hdir : env.dirExists with
        | false =>
          rw [loadFromPreferences_default env herr hl (Or.inl hdir)] at h
          cases h
          simp [availableServers]
        | true =>
          rw [loadFromPreferences_dir_cases env herr hl hdir] at h
          cases himp : importFiles env.cfgFiles
              { servers := [], deletedServers := [], store := env.prefsList } with
          | none =>
            rw [himp] at h
            exact Option.noConfusion h
          | some s2 =>
            rw [himp] at h
            simp only [Option.map_some'] at h
            have hs2 : (availableServers s2).Nodup := by
              refine importFiles_nodup env.cfgFiles _ s2 himp ?_
              simp [availableServers]
            cases h
            by_cases hie : s2.servers.isEmpty
            · rw [if_pos hie]
              simp [availableServers]
            · rw [if_neg hie]
              exact hs2
  · intro s name hnd
    cases hf : s.servers.findIdx? (fun t => t.name = name) with
    | some i =>
      rw [removeByName_found s name i hf]
      exact eraseIdx_names_nodup s.servers i hnd
    | none =>
      rw [removeByName_missing s name hf]
      exact hnd
  · intro s srv hnd
    unfold removeByRef
    cases hf : s.servers.findIdx? (fun t => t = srv) with
    | some i => exact eraseIdx_names_nodup s.servers i hnd
    | none => exact hnd
  · intro s name s2 hnd h
    rcases moveUp_cases s name s2 h with rfl | ⟨i, hf, hpos, hi, rfl⟩
    · exact hnd
    · have hperm : (listSwap s.servers i (i - 1)).Perm s.servers := by
        rw [listSwap_comm s.servers i (i - 1) hi (by omega)]
        have hj : i - 1 + 1 = i := by omega
        have := listSwap_adjacent_perm s.servers (i - 1) (by omega)
        rwa [hj] at this
      have : (availableServers { s with servers := listSwap s.servers i (i - 1) }).Perm
          (availableServers s) := hperm.map Server.name
      exact this.nodup_iff.mpr hnd
  · intro s name s2 hnd h
    rcases moveDown_cases s name s2 h with rfl | ⟨i, hf, hi, rfl⟩
    · exact hnd
    · have hperm : (listSwap s.servers i (i + 1)).Perm s.servers :=
        listSwap_adjacent_perm s.servers i hi
      have : (availableServers { s with servers := listSwap s.servers i (i + 1) }).Perm
          (availableServers s) := hperm.map Server.name
      exact this.nodup_iff.mpr hnd

theorem names_nodup_invariant_witness :
    (recordNames [Record.ofConfig { serverName := "a", settings := [] }]).Nodup
    ∧ (availableServers
        { servers := [{ configuration := { serverName := "a", settings := [] } }],
          deletedServers := [],
          store := [Record.ofConfig { serverName := "a", settings := [] }] }).Nodup :=
  ⟨by decide,
    names_nodup_invariant.1
      { prefsList := [Record.ofConfig { serverName := "a", settings := [] }],
        dirExists := false, cfgFiles := [] }
      _ (by decide) (by decide)⟩

/-- C5 counterexample: for the empty active sequence, persisting and then
bootstrapping afresh from the resulting store does not reproduce the
sequence — the hardcoded-default fallback yields one entry instead of
zero. -/
theorem roundTrip_empty_fails :
    (loadFromPreferences
        { prefsList := (saveToPreferences
            { servers := [], deletedServers := [], store := [] }).store,
          dirExists := false, cfgFiles := [] }).map RegState.servers
      = some [{ configuration := defaultConfiguration }]
    ∧ ([{ configuration := defaultConfiguration }] : List Server) ≠ [] := by
  decide

/-- C5 (amended): for every non-empty active sequence, calling `saveToPreferences`
followed by a fresh bootstrap against the resulting store reproduces the
same ordered server sequence — name for name and setting for setting —
regardless of the search directory contents. -/
theorem saveLoad_roundTrip (s : RegState) (hne : s.servers ≠ [])
    (dir : Bool) (files : List ConfigFile) :
    ∃ s2, loadFromPreferences
        { prefsList := (saveToPreferences s).store,
          dirExists := dir, cfgFiles := files } = some s2
      ∧ s2.servers = s.servers := by
  have hstore : (saveToPreferences s).store = serialized s.servers := rfl
  have h2 : (loadRecords ((saveToPreferences s).store)).2 = none := by
    rw [hstore, loadRecords_serialized]
  have h1 : (loadRecords ((saveToPreferences s).store)).1 = s.servers := by
    rw [hstore, loadRecords_serialized]
  refine ⟨_, loadFromPreferences_loaded
      { prefsList := (saveToPreferences s).store,
        dirExists := dir, cfgFiles := files } h2 ?_, ?_⟩
  · rw [h1]
    exact hne
  · exact h1

theorem saveLoad_roundTrip_witness :
    ∃ s2, loadFromPreferences
        { prefsList := (saveToPreferences
            { servers := [{ configuration := { serverName := "a", settings := [] } }],
              deletedServers := [], store := [] }).store,
          dirExists := false, cfgFiles := [] } = some s2
      ∧ s2.servers = [{ configuration := { serverName := "a", settings := [] } }] :=
  saveLoad_roundTrip
    { servers := [{ configuration := { serverName := "a", settings := [] } }],
      deletedServers := [], store := [] }
    (by decide) false []

/-- C6: with pairwise-distinct active names, removing a present name makes
`find` return the not-found signal and `indexOf` return `-1`, removes the
name from `availableServers`, and appends the removed server to the
deferred-destruction list; removing an absent name leaves the state
unchanged apart from the persist. -/
theorem remove_then_find (s : RegState) (name : String)
    (hnd : (availableServers s).Nodup) :
    (name ∈ availableServers s →
      find (removeByName s name) name = none ∧
      indexOf (removeByName s name) name = -1 ∧
      name ∉ availableServers (removeByName s name) ∧
      ∃ srv ∈ (removeByName s name).deletedServers, srv.name = name) ∧
    (name ∉ availableServers s → removeByName s name = save s) := by
  constructor
  · intro hmem
    have hsome : (s.servers.findIdx? (fun srv => srv.name = name)).isSome :=
      (mem_map_name_iff_findIdx s.servers name).mpr hmem
    obtain ⟨i, hf⟩ := Option.isSome_iff_exists.mp hsome
    obtain ⟨hi, hp, -⟩ := List.findIdx?_eq_some_iff_getElem.mp hf
    have hnames : availableServers (removeByName s name)
        = (s.servers.map Server.name).eraseIdx i := by
      rw [removeByName_found s name i hf]
      show (s.servers.eraseIdx i).map Server.name
          = (s.servers.map Server.name).eraseIdx i
      exact map_eraseIdx_comm Server.name s.servers i
    have hgetn : (s.servers.map Server.name)[i]? = some name := by
      rw [List.getElem?_map, List.getElem?_eq_getElem hi]
      simp only [Option.map_some']
      simpa using hp
    have hnot : name ∉ availableServers (removeByName s name) := by
      rw [hnames]
      exact nodup_not_mem_eraseIdx _ i name hnd hgetn
    refine ⟨(find_eq_none_iff _ name).mpr hnot,
      (indexOf_eq_neg_one_iff _ name).mpr hnot, hnot, ?_⟩
    have hdel : (removeByName s name).deletedServers
        = s.deletedServers ++ (s.servers[i]?).toList := by
      rw [removeByName_found s name i hf]
      rfl
    refine ⟨s.servers.get ⟨i, hi⟩, ?_, ?_⟩
    · rw [hdel, List.getElem?_eq_getElem hi]
      simp
    · simpa using hp
  · intro hmem
    have hf : s.servers.findIdx? (fun srv => srv.name = name) = none := by
      rw [List.findIdx?_eq_none_iff]
      intro srv hsrv
      simp only [decide_eq_false_iff_not]
      intro heq
      exact hmem (List.mem_map.mpr ⟨srv, hsrv, heq⟩)
    exact removeByName_missing s name hf

theorem remove_then_find_witness :
    (availableServers
        { servers := [{ configuration := { serverName := "a", settings := [] } }],
          deletedServers := [], store := [] }).Nodup
    ∧ "a" ∈ availableServers
        { servers := [{ configuration := { serverName := "a", settings := [] } }],
          deletedServers := [], store := [] }
    ∧ find (removeByName
        { servers := [{ configuration := { serverName := "a", settings := [] } }],
          deletedServers := [], store := [] } "a") "a" = none :=
  ⟨by decide, by decide,
    ((remove_then_find
        { servers := [{ configuration := { serverName := "a", settings := [] } }],
          deletedServers := [], store := [] } "a" (by decide)).1 (by decide)).1⟩

theorem moveUp_swap (s : RegState) (i : Nat) (hi : i < s.servers.length)
    (hpos : 0 < i) (hnd : (availableServers s).Nodup) :
    moveUp s ((s.servers.get ⟨i, hi⟩).name)
      = some (save { s with servers := listSwap s.servers i (i - 1) }) := by
  have hf := findIdx?_name_get s.servers i hi hnd
  unfold moveUp indexOf
  rw [hf]
  have hcond : (0 : Int) < (i : Int) := by omega
  rw [if_pos hcond]
  unfold swapQ
  have hrange : (0 : Int) ≤ (i : Int) ∧ (i : Int) < s.servers.length
      ∧ (0 : Int) ≤ (i : Int) - 1 ∧ (i : Int) - 1 < s.servers.length := by
    omega
  rw [if_pos hrange]
  have ht1 : ((i : Int)).toNat = i := by omega
  have ht2 : ((i : Int) - 1).toNat = i - 1 := by omega
  rw [ht1, ht2]
  rfl

theorem moveDown_swap (s : RegState) (i : Nat) (hi : i + 1 < s.servers.length)
    (hnd : (availableServers s).Nodup) :
    moveDown s ((s.servers.get ⟨i, Nat.lt_of_succ_lt hi⟩).name)
      = some (save { s with servers := listSwap s.servers i (i + 1) }) := by
  have hf := findIdx?_name_get s.servers i (Nat.lt_of_succ_lt hi) hnd
  unfold moveDown indexOf
  rw [hf]
  have hcond : (i : Int) < (s.servers.length : Int) - 1 := by omega
  rw [if_pos hcond]
  unfold swapQ
  have hrange : (0 : Int) ≤ (i : Int) ∧ (i : Int) < s.servers.length
      ∧ (0 : Int) ≤ (i : Int) + 1 ∧ (i : Int) + 1 < s.servers.length := by
    omega
  rw [if_pos hrange]
  have ht1 : ((i : Int)).toNat = i := by omega
  have ht2 : ((i : Int) + 1).toNat = i + 1 := by omega
  rw [ht1, ht2]
  rfl

theorem moveUp_head (s : RegState) (srv : Server) (t : List Server)
    (h : s.servers = srv :: t) : moveUp s srv.name = some (save s) := by
  have hf : s.servers.findIdx? (fun x => x.name = srv.name) = some 0 := by
    rw [h]
    simp [List.findIdx?_cons]
  unfold moveUp indexOf
  rw [hf]
  have hcond : ¬ ((0 : Int) < ((0 : Nat) : Int)) := by omega
  rw [if_neg hcond]

theorem moveDown_last (s : RegState) (srv : Server) (t : List Server)
    (hnd : (availableServers s).Nodup)
    (h : s.servers = t ++ [srv]) : moveDown s srv.name = some (save s) := by
  have hlen : s.servers.length = t.length + 1 := by
    rw [h]
    simp
  have hi : t.length < s.servers.length := by omega
  have hget : s.servers.get ⟨t.length, hi⟩ = srv := by
    simp only [List.get_eq_getElem]
    simp [h]
  have hf : s.servers.findIdx? (fun x => x.name = srv.name) = some t.length := by
    have hx := findIdx?_name_get s.servers t.length hi hnd
    rwa [hget] at hx
  unfold moveDown indexOf
  rw [hf]
  have hcond : ¬ ((t.length : Int) < (s.servers.length : Int) - 1) := by
    omega
  rw [if_neg hcond]

/-- C7: calling `moveUp` on the first entry's name and `moveDown` on the last
entry's name only re-persist, leaving the order unchanged; with
pairwise-distinct names, a non-boundary entry swaps with its immediate
predecessor (`moveUp`) or successor (`moveDown`) while every other entry
keeps its position. -/
theorem move_boundary_and_swap (s : RegState)
    (hnd : (availableServers s).Nodup) :
    (∀ srv t, s.servers = srv :: t → moveUp s srv.name = some (save s)) ∧
    (∀ srv t, s.servers = t ++ [srv] → moveDown s srv.name = some (save s)) ∧
    (∀ i (hi : i < s.servers.length), 0 < i →
      moveUp s ((s.servers.get ⟨i, hi⟩).name)
        = some (save { s with servers := s.servers.take (i - 1)
                        ++ s.servers.get ⟨i, hi⟩
                        :: s.servers.get ⟨i - 1, by omega⟩
                        :: s.servers.drop (i + 1) })) ∧
    (∀ i (hi : i + 1 < s.servers.length),
      moveDown s ((s.servers.get ⟨i, Nat.lt_of_succ_lt hi⟩).name)
        = some (save { s with servers := s.servers.take i
                        ++ s.servers.get ⟨i + 1, hi⟩
                        :: s.servers.get ⟨i, Nat.lt_of_succ_lt hi⟩
                        :: s.servers.drop (i + 2) })) := by
  refine ⟨fun srv t h => moveUp_head s srv t h,
    fun srv t h => moveDown_last s srv t hnd h, ?_, ?_⟩
  · intro i hi hpos
    obtain ⟨j, rfl⟩ : ∃ j, i = j + 1 := ⟨i - 1, by omega⟩
    simp only [Nat.add_sub_cancel]
    rw [moveUp_swap s (j + 1) hi (by omega) hnd]
    simp only [Nat.add_sub_cancel]
    rw [listSwap_comm s.servers (j + 1) j hi (by omega),
      listSwap_adjacent s.servers j hi]
  · intro i hi
    rw [moveDown_swap s i hi hnd]
    rw [listSwap_adjacent s.servers i hi]

theorem move_boundary_and_swap_witness :
    moveUp { servers := [{ configuration := { serverName := "a", settings := [] } },
                         { configuration := { serverName := "b", settings := [] } }],
             deletedServers := [], store := [] }
        (Server.name { configuration := { serverName := "a", settings := [] } })
      = some (save { servers := [{ configuration := { serverName := "a",
                                                      settings := [] } },
                                 { configuration := { serverName := "b",
                                                      settings := [] } }],
                     deletedServers := [], store := [] }) :=
  (move_boundary_and_swap
      { servers := [{ configuration := { serverName := "a", settings := [] } },
                    { configuration := { serverName := "b", settings := [] } }],
        deletedServers := [], store := [] }
      (by decide)).1
    { configuration := { serverName := "a", settings := [] } }
    [{ configuration := { serverName := "b", settings := [] } }] rfl

/-- C9: every mutating operation — `addServer`, remove by name, remove by
reference, `moveUp`, `moveDown` — ends with a full re-persist: afterwards
the stored list equals the serialisation of the final active sequence, in
order, also when the operation itself changed nothing. -/
theorem mutators_repersist (s : RegState) (c : ServerConfiguration)
    (name : String) (srv : Server) :
    ((addServer s c).2.store = serialized (addServer s c).2.servers) ∧
    ((removeByName s name).store = serialized (removeByName s name).servers) ∧
    ((removeByRef s srv).store = serialized (removeByRef s srv).servers) ∧
    (∀ s2, moveUp s name = some s2 → s2.store = serialized s2.servers) ∧
    (∀ s2, moveDown s name = some s2 → s2.store = serialized s2.servers) := by
  refine ⟨rfl, ?_, ?_, ?_, ?_⟩
  · cases hf : s.servers.findIdx? (fun x => x.name = name) with
    | some i =>
      rw [removeByName_found s name i hf]
      exact save_invariant _
    | none =>
      rw [removeByName_missing s name hf]
      exact save_invariant _
  · unfold removeByRef
    cases hf : s.servers.findIdx? (fun x => x = srv) with
    | some i => exact save_invariant _
    | none => exact save_invariant _
  · intro s2 h
    rcases moveUp_cases s name s2 h with rfl | ⟨i, -, -, -, rfl⟩
    · exact save_invariant _
    · exact save_invariant _
  · intro s2 h
    rcases moveDown_cases s name s2 h with rfl | ⟨i, -, -, rfl⟩
    · exact save_invariant _
    · exact save_invariant _

theorem mutators_repersist_witness :
    (removeByName emptyRegistry "a").store
      = serialized (removeByName emptyRegistry "a").servers
    ∧ (save emptyRegistry).store = serialized (save emptyRegistry).servers :=
  ⟨(mutators_repersist emptyRegistry defaultConfiguration "a"
      { configuration := defaultConfiguration }).2.1,
    (mutators_repersist emptyRegistry defaultConfiguration "a"
      { configuration := defaultConfiguration }).2.2.2.2
      (save emptyRegistry) (by decide)⟩

end Process

end IQmol
